import Mathlib

/-!
Verification of the s3-browser virtual path and navigation engine.

This file gives a shallow embedding, in Lean 4, of the core of the
s3_browser package: the path data model (paths.py), the listing cache and
its invalidation walk (client.py), the bookmark tokeniser (tokeniser.py),
the path normalisation of the interactive shell (cli.py) and the remote
path completion (completion.py).  Python strings are modelled as Lean
Strings (lists of characters); the os.path functions used by the code
(normpath, realpath, join, dirname, basename, rfind based slicing) are
modelled character by character following the POSIX implementations, with
the filesystem assumed free of symlinks so that realpath coincides with
normpath.  Python exceptions are modelled with an Except monad over a
single PyExc error universe; falsy tests on strings and lists are spelled
out as emptiness tests.
-/

set_option linter.unusedVariables false

deriving instance DecidableEq for Except

/-! ## Character list helpers shared by the os.path models -/

/-- Model of Python str.split with a one character separator: splits on every
occurrence and keeps empty pieces, so the result is never empty. -/
def splitOnChar (c : Char) : List Char → List (List Char)
  | [] => [[]]
  | x :: xs =>
    if x = c then [] :: splitOnChar c xs
    else
      match splitOnChar c xs with
      | [] => [[x]]
      | h :: t => (x :: h) :: t

/-- Model of Python sep.join for the slash separator, on character lists. -/
def joinSlashL : List (List Char) → List Char
  | [] => []
  | [x] => x
  | x :: xs => x ++ '/' :: joinSlashL xs

/-- Convenience wrapper building a slash separated key out of segments. -/
def joinSegs (segs : List String) : String :=
  String.mk (joinSlashL (segs.map String.data))

/-! ## Models of the os.path functions used by the source -/

/-- Leading slash count as computed by posixpath.normpath: one slash for a
single leading slash or three and more, two for exactly two. -/
def initialSlashesL (l : List Char) : Nat :=
  match l with
  | [] => 0
  | c1 :: rest =>
    if c1 = '/' then
      match rest with
      | [] => 1
      | c2 :: rest2 =>
        if c2 = '/' then
          match rest2 with
          | [] => 2
          | c3 :: _ => if c3 = '/' then 1 else 2
        else 1
    else 0

/-- The component loop of posixpath.normpath: empty and dot components are
dropped, dotdot pops the previous component unless at a (relative) start or
after another surviving dotdot. -/
def normComps (slashes : Nat) : List (List Char) → List (List Char) → List (List Char)
  | acc, [] => acc
  | acc, c :: rest =>
    if c = [] ∨ c = ['.'] then normComps slashes acc rest
    else if ¬ c = ['.', '.'] ∨ (slashes = 0 ∧ acc = []) ∨ acc.getLast? = some ['.', '.'] then
      normComps slashes (acc ++ [c]) rest
    else if ¬ acc = [] then normComps slashes acc.dropLast rest
    else normComps slashes acc rest

/-- Model of posixpath.normpath. -/
def pyNormpath (p : String) : String :=
  let slashes := initialSlashesL p.data
  let comps := normComps slashes [] (splitOnChar '/' p.data)
  let out := List.replicate slashes '/' ++ joinSlashL comps
  String.mk (if out = [] then ['.'] else out)

/-- Model of posixpath.join restricted to two arguments: an absolute second
argument wins, otherwise it is appended with a separator when needed. -/
def pyJoin (a b : String) : String :=
  if b.data.head? = some '/' then b
  else if a.data = [] ∨ a.data.getLast? = some '/' then a ++ b
  else a ++ "/" ++ b

/-- Model of posixpath.dirname on character lists: everything up to the last
slash, with trailing slashes stripped unless the head is all slashes. -/
def dirnameL (l : List Char) : List Char :=
  if (l.reverse.dropWhile (fun c => ¬ c = '/')).all (fun c => c = '/') then
    (l.reverse.dropWhile (fun c => ¬ c = '/')).reverse
  else
    ((l.reverse.dropWhile (fun c => ¬ c = '/')).dropWhile (fun c => c = '/')).reverse

/-- Model of posixpath.dirname. -/
def pyDirname (s : String) : String :=
  String.mk (dirnameL s.data)

/-- Model of posixpath.basename: everything after the last slash. -/
def pyBasename (s : String) : String :=
  String.mk (s.data.reverse.takeWhile (fun c => ¬ c = '/')).reverse

/-- Model of Python str.rfind for a single character: index of the last
occurrence, none standing for the -1 of the original. -/
def pyRfind (s : String) (c : Char) : Option Nat :=
  if c ∈ s.data then
    some (s.data.length - 1 - (s.data.reverse.takeWhile (fun x => ¬ x = c)).length)
  else none

/-- Model of Python str.lstrip for the slash character. -/
def lstripSlashes (s : String) : String :=
  String.mk (s.data.dropWhile (fun c => c = '/'))

/-- Model of Python str.strip for the slash character. -/
def stripSlashes (s : String) : String :=
  String.mk (((s.data.dropWhile (fun c => c = '/')).reverse.dropWhile (fun c => c = '/')).reverse)

/-- Model of Python character level slicing s[n:]. -/
def pyDropChars (n : Nat) (s : String) : String :=
  String.mk (s.data.drop n)

/-! ## paths.py: the S3Path data model -/

/-- Model of paths.S3Path: a bucket and a slash delimited key, either of
which may be absent (None). The derived name field of the original is
display only metadata and is not part of equality; it is omitted. -/
structure S3Path where
  bucket : Option String
  path : Option String
  deriving DecidableEq

/-- Model of the S3Path constructor: a falsy (None or empty) path becomes
None, otherwise the path is normalised through os.path.realpath rooted at
slash with the leading slash dropped again.  realpath is modelled as
normpath, the filesystem being assumed symlink free. -/
def S3Path.init (bucket : Option String) (path : Option String) : S3Path :=
  { bucket := bucket
    path :=
      match path with
      | none => none
      | some p =>
        if p = "" then none
        else some (pyDropChars 1 (pyNormpath ("/" ++ p))) }

/-- Model of the canonical property: full path with the s3 protocol. -/
def S3Path.canonical (p : S3Path) : String :=
  if p.bucket.getD "" = "" then "s3://"
  else "s3://" ++ p.bucket.getD "" ++ "/" ++ p.path.getD ""

/-- Model of the path_string property, which is also the str() rendering. -/
def S3Path.path_string (p : S3Path) : String :=
  if p.bucket.getD "" = "" then "/"
  else "/" ++ p.bucket.getD "" ++ "/" ++ p.path.getD ""

/-- Model of Python equality on S3Path, which compares canonical forms. -/
def S3Path.pyEq (a b : S3Path) : Prop :=
  a.canonical = b.canonical

/-- Model of S3Path.from_path: strip an optional s3 protocol, normalise,
strip outer slashes, and split the first component off as the bucket. -/
def S3Path.from_path (path : String) : S3Path :=
  let path := if path.data.take 5 = "s3://".data then pyDropChars 5 path else path
  let path := pyNormpath path
  let path := stripSlashes path
  if path = "" ∨ path = "." then S3Path.init none none
  else
    let comp := splitOnChar '/' path.data
    S3Path.init (some (String.mk (comp.headD []))) (some (String.mk (joinSlashL comp.tail)))

/-! ## Python exception universe -/

/-- The exceptions that can be observed from the modelled code paths. -/
inductive PyExc where
  /-- TokeniserException for an unclosed braced variable. -/
  | unclosedVariable : PyExc
  /-- TokeniserException for a variable missing from the render context. -/
  | unknownToken (name : String) : PyExc
  /-- AttributeError raised by render when a falsy RawString falls through
  to the name lookup. -/
  | attributeError : PyExc
  /-- botocore ClientError raised by a backend call. -/
  | clientError : PyExc
  /-- A backend failure that is not a ClientError, such as a botocore
  connection error. -/
  | connectionError : PyExc
  /-- TypeError, as raised by os.path.dirname(None). -/
  | typeError : PyExc
  /-- IndexError, as raised by negative string indexing past the start. -/
  | indexError : PyExc
  deriving DecidableEq

/-! ## tokeniser.py -/

/-- Model of the token classes of tokeniser.py: Token is a variable
reference carrying a name, RawString a literal carrying a value. -/
inductive Tok where
  | Token (name : String) : Tok
  | RawString (value : String) : Tok
  deriving DecidableEq

/-- The loop state of tokenise: accumulated tokens, current accumulator and
the three boolean flags. -/
structure TokSt where
  acc : List Tok
  curr : List Char
  is_var : Bool
  is_braced : Bool
  is_escaped : Bool

/-- One iteration of the character loop of tokenise. -/
def tokeniseStep (st : TokSt) (c : Char) : TokSt :=
  if st.is_var = false then
    if c = '\\' ∧ st.is_escaped = false then
      { st with is_escaped := true }
    else if c = '$' ∧ st.is_escaped = false then
      { st with
        acc := st.acc ++ (if ¬ st.curr = [] then [Tok.RawString (String.mk st.curr)] else [])
        curr := []
        is_var := true }
    else
      let curr := if st.is_escaped = true ∧ ¬ c = '$' then st.curr ++ ['\\'] else st.curr
      { st with curr := curr ++ [c], is_escaped := false }
  else if c = '{' ∧ st.curr = [] then
    { st with is_braced := true }
  else if st.is_braced = true then
    if c = '}' then
      { st with acc := st.acc ++ [Tok.Token (String.mk st.curr)], is_var := false,
                is_braced := false, curr := [] }
    else { st with curr := st.curr ++ [c] }
  else if ¬ c.isAlphanum ∧ ¬ c = '_' then
    let st := { st with acc := st.acc ++ [Tok.Token (String.mk st.curr)], is_var := false,
                        is_braced := false, curr := [] }
    if c = '\\' then { st with is_escaped := true }
    else if c = '$' then { st with is_var := true }
    else { st with curr := [c] }
  else { st with curr := st.curr ++ [c] }

/-- Model of tokeniser.tokenise: fold the step over the characters, fail on
an unclosed braced variable, and flush a pending token or raw string. -/
def tokenise (s : String) : Except PyExc (List Tok) :=
  let st := s.data.foldl tokeniseStep ⟨[], [], false, false, false⟩
  if st.is_var = true ∧ st.is_braced = true then .error .unclosedVariable
  else
    .ok (st.acc ++
      (if ¬ st.curr = [] then
        [if st.is_var = true then Tok.Token (String.mk st.curr)
         else Tok.RawString (String.mk st.curr)]
       else []))

/-- The accumulator loop of tokeniser.render.  A truthy RawString value is
appended; a falsy one falls through to the name lookup of the original and
hits a missing attribute; a Token name is looked up in the context and a
miss raises the unknown token error. -/
def renderAux (tokens : List Tok) (context : List (String × String)) (acc : String) :
    Except PyExc String :=
  match tokens with
  | [] => .ok acc
  | t :: rest =>
    match t with
    | .RawString v =>
      if ¬ v = "" then renderAux rest context (acc ++ v)
      else .error .attributeError
    | .Token n =>
      match context.lookup n with
      | none => .error (.unknownToken n)
      | some v => renderAux rest context (acc ++ v)

/-- Model of tokeniser.render. -/
def render (tokens : List Tok) (context : List (String × String)) : Except PyExc String :=
  renderAux tokens context ""

/-! ## cli.py: path normalisation -/

/-- Model of Cli.normalise_path.  The bookmark context is passed explicitly
as an association list; the current S3Path of the shell is passed
explicitly in place of self.current_path. -/
def Cli.normalise_path (ctx : List (String × String)) (current : S3Path) (path : String) :
    Except PyExc S3Path := do
  let toks ← tokenise path
  let path ← render toks ctx
  let path := if path.data.take 5 = "s3://".data then pyDropChars 5 path else path
  if path = "~" ∨ path = "~/" then pure (S3Path.init current.bucket none)
  else pure (S3Path.from_path (pyJoin ("/" ++ current.path_string) path))

/-! ## client.py: the listing cache and the S3 client -/

/-- Model of the entries returned by listings: paths.S3Bucket,
paths.S3Prefix and paths.S3Key.  The transient bookmark annotation of the
presentation layer is omitted; the updated_on timestamp of a key is kept as
its already formatted string. -/
inductive S3Base where
  | S3Bucket (bucket : String) : S3Base
  | S3Prefix (prefixStr : String) : S3Base
  | S3Key (key : String) (updated_on : Option String) : S3Base
  deriving DecidableEq

/-- Model of the is_key attribute: true exactly for keys. -/
def S3Base.is_key : S3Base → Bool
  | .S3Key _ _ => true
  | _ => false

/-- Model of the path_string property of the three listing entries. -/
def S3Base.path_string : S3Base → String
  | .S3Bucket b => "/" ++ b ++ "/"
  | .S3Prefix p => p
  | .S3Key k _ => k

/-- The path cache: a finite mapping from (canonical, fragment) pairs to
listings, modelled as an association list. -/
def CacheMap : Type := List ((String × Bool) × List S3Base)

instance : DecidableEq CacheMap := by
  unfold CacheMap; infer_instance

/-- Dictionary lookup (dict.get) on the cache. -/
def cacheGet : CacheMap → (String × Bool) → Option (List S3Base)
  | [], _ => none
  | e :: rest, k => if e.1 = k then some e.2 else cacheGet rest k

/-- Dictionary assignment on the cache: replace the first binding of the
key, or append a fresh one. -/
def cacheInsert : CacheMap → (String × Bool) → List S3Base → CacheMap
  | [], k, v => [(k, v)]
  | e :: rest, k, v => if e.1 = k then (k, v) :: rest else e :: cacheInsert rest k v

/-- Dictionary removal (dict.pop with a default) on the cache. -/
def cacheErase (st : CacheMap) (k : String × Bool) : CacheMap :=
  st.filter (fun e => ¬ e.1 = k)

/-- A cache is well formed when it never stores an empty listing; the ls
code only ever inserts truthy results, so every reachable cache satisfies
this. -/
def CacheWF (st : CacheMap) : Prop :=
  ∀ k l, cacheGet st k = some l → ¬ l = []

/-- One page of a paginated list_objects response: the CommonPrefixes
strings and the Contents entries as (Key, LastModified) pairs. -/
structure BotoPage where
  commonPrefixes : List String
  contents : List (String × String)

/-- The boto3 S3 client as an oracle: the outcomes of list_buckets and of a
paginated list_objects call for a bucket and prefix (the delimiter is
always the slash).  Either call may raise. -/
structure BotoModel where
  list_buckets : Except PyExc (List String)
  list_objects : String → String → Except PyExc (List BotoPage)

/-- Model of the inner _fetch closure of S3Client.ls: list buckets when
there is no bucket, or a fragment query with no key part; otherwise page
through list_objects under the computed search path and strip the search
prefix off every result. -/
def S3Client.fetchOp (boto : BotoModel) (path : S3Path) (path_fragment : Bool) :
    Except PyExc (List S3Base) := do
  if path.bucket.getD "" = "" ∨ (path.path.getD "" = "" ∧ path_fragment = true) then
    let names ← boto.list_buckets
    let res := names.map S3Base.S3Bucket
    let res :=
      if ¬ path.bucket.getD "" = "" then
        res.filter (fun r =>
          match r with
          | .S3Bucket b => (path.bucket.getD "").data.isPrefixOf b.data
          | _ => false)
      else res
    pure res
  else
    let search_path :=
      if path_fragment = false then
        if ¬ path.path.getD "" = "" then path.path.getD "" ++ "/" else ""
      else path.path.getD ""
    let search_len :=
      match pyRfind search_path '/' with
      | some i => i + 1
      | none => 0
    let pages ← boto.list_objects (path.bucket.getD "") search_path
    let prefixes := pages.flatMap (fun pg =>
      pg.commonPrefixes.map (fun r => S3Base.S3Prefix (pyDropChars search_len r)))
    let keys := pages.flatMap (fun pg =>
      (pg.contents.filter (fun r => ¬ r.1 = search_path)).map
        (fun r => S3Base.S3Key (pyDropChars search_len r.1) (some r.2)))
    pure (prefixes ++ keys)

/-- The memoisation wrapper of S3Client.ls, the get_or_fetch of the
specification: return a cached listing if the key is present, otherwise run
the fetch and cache its result only when it is truthy (non empty). -/
def S3Client.lsWith (st : CacheMap) (path : S3Path) (path_fragment : Bool)
    (fetched : Except PyExc (List S3Base)) : Except PyExc (CacheMap × List S3Base) :=
  let cache_key := (path.canonical, path_fragment)
  match cacheGet st cache_key with
  | some cached => .ok (st, cached)
  | none =>
    match fetched with
    | .error e => .error e
    | .ok res => .ok (if ¬ res = [] then cacheInsert st cache_key res else st, res)

/-- Model of S3Client.ls: the memoisation wrapper around _fetch. -/
def S3Client.ls (boto : BotoModel) (st : CacheMap) (path : S3Path) (path_fragment : Bool) :
    Except PyExc (CacheMap × List S3Base) :=
  S3Client.lsWith st path path_fragment (S3Client.fetchOp boto path path_fragment)

/-- The body of the while loop of S3Client.invalidate_cache with an
explicit structural fuel so that the definition computes in the kernel.
The wrapper invalidateWalk below always supplies enough fuel, and the
theorem invalidateWalk_eq shows the wrapper satisfies the loop equation of
the source exactly. -/
def invalidateWalkAux (bucket : Option String) : Nat → List Char → List (String × Bool) × List Char
  | 0, p => ([], p)
  | fuel + 1, p =>
    if dirnameL p = p then
      ([(S3Path.canonical ⟨bucket, some (String.mk p)⟩, true),
        (S3Path.canonical ⟨bucket, some (String.mk p)⟩, false)], p)
    else
      ([(S3Path.canonical ⟨bucket, some (String.mk p)⟩, true),
        (S3Path.canonical ⟨bucket, some (String.mk p)⟩, false)] ++
          (invalidateWalkAux bucket fuel (dirnameL p)).1,
        (invalidateWalkAux bucket fuel (dirnameL p)).2)

/-- The while loop of S3Client.invalidate_cache: collect both fragment mode
cache keys for the current canonical path, stop when dirname is a fixed
point, else walk up.  Returns the collected keys and the final (mutated)
path value. -/
def invalidateWalk (bucket : Option String) (p : List Char) :
    List (String × Bool) × List Char :=
  invalidateWalkAux bucket (p.length + 1) p

/-- Model of S3Client.invalidate_cache.  The walk aliases the argument (no
copy is taken), so the mutated S3Path is returned alongside the new cache;
a path without a key raises TypeError from os.path.dirname(None) before
any cache entry is removed. -/
def S3Client.invalidate_cache (st : CacheMap) (path : S3Path) :
    Except PyExc (CacheMap × S3Path) :=
  match path.path with
  | none => .error .typeError
  | some p =>
    let walk := invalidateWalk path.bucket p.data
    .ok (walk.1.foldl (fun s k => cacheErase s k) st, { path with path := some (String.mk walk.2) })

/-! ## completion.py: remote path completion -/

/-- The slice of prompt_toolkit Document used by the completer. -/
structure Document where
  current_line_before_cursor : String

/-- A value returned by complete_s3_path: either a bare string (as returned
by the tilde special case) or a prompt_toolkit Completion carrying a
replacement text and a start position. -/
inductive CompletionItem where
  | rawText (s : String) : CompletionItem
  | completion (text : String) (start_position : Int) : CompletionItem
  deriving DecidableEq

/-- The quote characters recognised by the completer. -/
def QUOTES : List Char := ['\'', '"']

/-- A character that shlex.quote considers safe (re.ASCII word characters
and the punctuation in its unsafe pattern complement). -/
def shlexSafeChar (c : Char) : Bool :=
  c.isAlphanum ∨ c ∈ ['_', '@', '%', '+', '=', ':', ',', '.', '/', '-']

/-- Model of shlex.quote. -/
def shlexQuote (s : String) : String :=
  if s = "" then "''"
  else if s.data.all shlexSafeChar then s
  else
    "'" ++ String.mk (s.data.flatMap
      (fun c => if c = '\'' then ['\'', '"', '\'', '"', '\''] else [c])) ++ "'"

/-- Model of CliCompleter._get_path_start_pos.  Negative indexing past the
start of the string raises IndexError, as in Python. -/
def getPathStartPos (path : String) (doc : Document) : Except PyExc Int := do
  let text0 := doc.current_line_before_cursor
  let stripQuote : Bool :=
    match text0.data.getLast? with
    | some c => decide (c ∈ QUOTES)
    | none => false
  let text := if stripQuote then String.mk text0.data.dropLast else text0
  let offset : Int := if stripQuote then 0 else 1
  let offset ←
    if path.data.isSuffixOf text.data then
      if path.data.length + 1 ≤ text.data.length then
        if text.data.getD (text.data.length - path.data.length - 1) ' ' ∈ QUOTES then
          pure (offset - 1)
        else pure offset
      else throw PyExc.indexError
    else pure offset
  let slash_index : Int :=
    match pyRfind path '/' with
    | some i => (i : Int)
    | none => -1
  pure (slash_index - (path.data.length : Int) + offset)

/-- Model of CliCompleter.EXPECTS_KEY. -/
def CliCompleter.EXPECTS_KEY : List String := ["cat", "file", "head", "rm"]

/-- Model of CliCompleter.EXPECTS_S3_PATH. -/
def CliCompleter.EXPECTS_S3_PATH : List String :=
  ["cd", "ls", "ll"] ++ CliCompleter.EXPECTS_KEY

/-- The fragment mode flag passed by complete_s3_path to ls: true when the
partial string is non empty and does not end with a slash. -/
def fragOf (p : String) : Bool :=
  ¬ p.data.getLast? = some '/' ∧ ¬ p = ""

/-- The head of complete_s3_path: compute the special dot results and the
search path.  A trailing dot or dotdot segment with a current bucket is
completed one level up with the dot segment joined back on; otherwise the
partial path is normalised directly. -/
def specialAndSearch (ctx : List (String × String)) (current : S3Path) (partialStr : String) :
    Except PyExc (List String × S3Path) := do
  let basename := pyBasename partialStr
  if (basename = "." ∨ basename = "..") ∧ current.bucket.isSome then
    let sp ← Cli.normalise_path ctx current (pyDirname partialStr)
    pure ([basename ++ "/"],
      { sp with path := some (pyJoin (sp.path.getD "") basename) })
  else
    let sp ← Cli.normalise_path ctx current partialStr
    pure ([], sp)

/-- Model of CliCompleter.complete_s3_path.  The boto oracle, cache state,
bookmark context and current path stand in for the cli and client objects;
a ClientError from the listing is caught and treated as an empty result
list, any other exception propagates. -/
def CliCompleter.complete_s3_path (boto : BotoModel) (st : CacheMap)
    (ctx : List (String × String)) (current : S3Path) (partialStr : String)
    (doc : Document) (allow_keys : Bool) :
    Except PyExc (CacheMap × List CompletionItem) :=
  if partialStr = "~" then .ok (st, [.rawText "~/"])
  else do
    let (special_results, search_path) ← specialAndSearch ctx current partialStr
    match S3Client.ls boto st search_path (fragOf partialStr) with
    | .ok (st2, results) =>
      let hits := (results.filter (fun r => allow_keys || ! r.is_key)).map
        (fun r => shlexQuote (lstripSlashes r.path_string))
      let res := special_results ++ hits
      let items ← res.mapM (fun r => do
        let pos ← getPathStartPos partialStr doc
        pure (CompletionItem.completion r pos))
      pure (st2, items)
    | .error .clientError =>
      let res := special_results
      let items ← res.mapM (fun r => do
        let pos ← getPathStartPos partialStr doc
        pure (CompletionItem.completion r pos))
      pure (st, items)
    | .error e => .error e

/-! ## Basic string and cache lemmas -/

@[simp] theorem str_data_mk (l : List Char) : (String.mk l).data = l := rfl

@[simp] theorem str_mk_data (s : String) : String.mk s.data = s := rfl

@[simp] theorem str_data_append (a b : String) : (a ++ b).data = a.data ++ b.data := rfl

theorem str_eq_iff_data {s t : String} : s = t ↔ s.data = t.data :=
  ⟨congrArg _, fun h => by cases s; cases t; simp at h; rw [h]⟩

theorem cacheGet_insert_self (st : CacheMap) (k : String × Bool) (v : List S3Base) :
    cacheGet (cacheInsert st k v) k = some v := by
  induction st with
  | nil => simp [cacheInsert, cacheGet]
  | cons e rest ih =>
    by_cases h : e.1 = k
    · simp [cacheInsert, cacheGet, h]
    · simp [cacheInsert, cacheGet, h, ih]

theorem cacheGet_erase_self (st : CacheMap) (k : String × Bool) :
    cacheGet (cacheErase st k) k = none := by
  induction st with
  | nil => simp [cacheErase, cacheGet]
  | cons e rest ih =>
    by_cases h : e.1 = k
    · simpa [cacheErase, List.filter_cons, h] using ih
    · simpa [cacheErase, List.filter_cons, h, cacheGet] using ih

theorem cacheGet_erase_none (st : CacheMap) (k k2 : String × Bool)
    (h : cacheGet st k = none) : cacheGet (cacheErase st k2) k = none := by
  induction st with
  | nil => simp [cacheErase, cacheGet]
  | cons e rest ih =>
    by_cases he : e.1 = k
    · simp [cacheGet, he] at h
    · simp only [cacheGet, he, if_neg, if_false] at h
      by_cases he2 : e.1 = k2
      · simpa [cacheErase, List.filter_cons, he2] using ih h
      · simpa [cacheErase, List.filter_cons, he2, cacheGet, he] using ih h

theorem cacheGet_none_foldl_erase (keys : List (String × Bool)) (st : CacheMap)
    (k : String × Bool) (h : cacheGet st k = none) :
    cacheGet (keys.foldl (fun s kk => cacheErase s kk) st) k = none := by
  induction keys generalizing st with
  | nil => simpa using h
  | cons a ks ih =>
    rw [List.foldl_cons]
    exact ih _ (cacheGet_erase_none st k a h)

theorem cacheGet_foldl_erase (keys : List (String × Bool)) (st : CacheMap)
    (k : String × Bool) (h : k ∈ keys) :
    cacheGet (keys.foldl (fun s kk => cacheErase s kk) st) k = none := by
  induction keys generalizing st with
  | nil => simp at h
  | cons a ks ih =>
    rw [List.foldl_cons]
    rcases List.mem_cons.mp h with rfl | hks
    · exact cacheGet_none_foldl_erase ks _ _ (cacheGet_erase_self _ _)
    · exact ih _ hks

/-! ## Claim C1: the cache memoises exactly the non empty results -/

/-- C1: if get_or_fetch (the memoising wrapper of S3Client.ls) returns a
non empty list, the result is cached under (canonical, fragment) and a
second identical call returns it without consulting the fetch outcome at
all; if it returns an empty list, the cache is unchanged, the key is still
absent, and a second identical call is again determined by the fetch
outcome. -/
theorem c1_cache_only_nonempty (st : CacheMap) (path : S3Path) (frag : Bool)
    (f : Except PyExc (List S3Base)) (st' : CacheMap) (res : List S3Base)
    (hwf : CacheWF st)
    (h : S3Client.lsWith st path frag f = .ok (st', res)) :
    (¬ res = [] →
      cacheGet st' (path.canonical, frag) = some res ∧
      ∀ f2, S3Client.lsWith st' path frag f2 = .ok (st', res)) ∧
    (res = [] →
      st' = st ∧ cacheGet st' (path.canonical, frag) = none ∧
      ∀ f2, S3Client.lsWith st' path frag f2 =
        f2.map (fun res2 =>
          (if ¬ res2 = [] then cacheInsert st' (path.canonical, frag) res2 else st', res2))) := by
  dsimp only [S3Client.lsWith] at h ⊢
  cases hc : cacheGet st (path.canonical, frag) with
  | some cached =>
    rw [hc] at h
    simp only [Except.ok.injEq, Prod.mk.injEq] at h
    obtain ⟨rfl, rfl⟩ := h
    constructor
    · intro hne
      refine ⟨hc, fun f2 => ?_⟩
      rw [hc]
    · intro hres
      exact absurd hres (hwf _ _ hc)
  | none =>
    rw [hc] at h
    cases f with
    | error e => simp at h
    | ok r =>
      simp only [Except.ok.injEq, Prod.mk.injEq] at h
      obtain ⟨hst, rfl⟩ := h
      constructor
      · intro hne
        rw [if_pos hne] at hst
        have hself : cacheGet st' (path.canonical, frag) = some r := by
          rw [← hst]; exact cacheGet_insert_self _ _ _
        refine ⟨hself, fun f2 => ?_⟩
        rw [hself]
      · intro hres
        rw [if_neg (by simpa using hres)] at hst
        subst hst
        refine ⟨rfl, hc, fun f2 => ?_⟩
        rw [hc]
        cases f2 <;> rfl

/-- Witness for C1 at a concrete instance: an empty cache, a fetch
returning one prefix, and the resulting cache hit on the second call. -/
theorem c1_cache_only_nonempty_witness :
    cacheGet [(("s3://b/k", false), [S3Base.S3Prefix "p/"])] ("s3://b/k", false) =
      some [S3Base.S3Prefix "p/"] ∧
    ∀ f2, S3Client.lsWith [(("s3://b/k", false), [S3Base.S3Prefix "p/"])]
        ⟨some "b", some "k"⟩ false f2 =
      .ok ([(("s3://b/k", false), [S3Base.S3Prefix "p/"])], [S3Base.S3Prefix "p/"]) :=
  (c1_cache_only_nonempty [] ⟨some "b", some "k"⟩ false (.ok [S3Base.S3Prefix "p/"])
    [(("s3://b/k", false), [S3Base.S3Prefix "p/"])] [S3Base.S3Prefix "p/"]
    (fun k l h => by simp [cacheGet] at h) (by decide)).1 (by decide)

/-! ## Claim C4: backslash handling in the tokeniser -/

/-- C4 counterexample: a backslash before an ordinary character does not
emit the bare character; the backslash is kept, so the claimed output is
not produced. -/
theorem c4_counterexample :
    tokenise "\\a" = .ok [Tok.RawString "\\a"] ∧
    ¬ tokenise "\\a" = .ok [Tok.RawString "a"] := by decide

/-- C4 amended: outside a variable only the sequence backslash dollar
consumes the backslash (giving a literal dollar in a RawString); a
backslash before any other character is preserved together with that
character. -/
theorem c4_amended :
    (∀ c : Char, ¬ c = '$' →
      tokenise (String.mk ['\\', c]) = .ok [Tok.RawString (String.mk ['\\', c])]) ∧
    tokenise "\\$" = .ok [Tok.RawString "$"] := by
  constructor
  · intro c hc
    simp [tokenise, tokeniseStep, hc]
  · decide

/-- Witness for C4 at the concrete character a. -/
theorem c4_amended_witness :
    tokenise (String.mk ['\\', 'a']) = .ok [Tok.RawString (String.mk ['\\', 'a'])] :=
  c4_amended.1 'a' (by decide)

/-! ## Claim C3: normalisation of a canonical path is not idempotent -/

/-- C3: evaluation of the code at the failing input.  The already
normalised path s3://bucket/a/b/c, renormalised from the current location
s3://bucket/, is treated as a relative path after the protocol strip and
joined under the current bucket, so the result differs from the original
(the repository test suite, test_cli.py, expects the original back). -/
theorem c3_normalise_not_idempotent :
    S3Path.from_path "s3://bucket/a/b/c" = ⟨some "bucket", some "a/b/c"⟩ ∧
    Cli.normalise_path [] ⟨some "bucket", none⟩ "s3://bucket/a/b/c" =
      .ok ⟨some "bucket", some "bucket/a/b/c"⟩ ∧
    ¬ S3Path.canonical ⟨some "bucket", some "bucket/a/b/c"⟩ =
        S3Path.canonical ⟨some "bucket", some "a/b/c"⟩ := by decide

/-! ## Claim C2 counterexample: dotdot at the bucket root clears the bucket -/

/-- C2 counterexample: normalising dotdot from a bucket root does not
preserve the bucket; it yields the global root with no bucket at all. -/
theorem c2_counterexample :
    Cli.normalise_path [] ⟨some "bucket", none⟩ ".." = .ok ⟨none, none⟩ ∧
    ¬ Cli.normalise_path [] ⟨some "bucket", none⟩ ".." = .ok ⟨some "bucket", none⟩ := by decide

/-! ## Claim C8 counterexample: only ClientError is swallowed -/

/-- C8 counterexample: a backend failure that is not a ClientError (for
example a connection error) propagates out of remote path completion
instead of degrading to an empty candidate list. -/
theorem c8_counterexample :
    CliCompleter.complete_s3_path
      ⟨.error .connectionError, fun _ _ => .error .connectionError⟩
      [] [] ⟨some "b", none⟩ "x" ⟨"ls x"⟩ false = .error .connectionError := by decide


/-! ## Tokeniser structure lemmas and claim C10 -/

/-- Each tokeniser step only ever appends to the accumulated token list. -/
theorem tokeniseStep_acc_prefix (st : TokSt) (c : Char) :
    ∃ t, (tokeniseStep st c).acc = st.acc ++ t := by
  unfold tokeniseStep
  split
  · split
    · exact ⟨[], by simp⟩
    · split
      · exact ⟨_, rfl⟩
      · exact ⟨[], by simp⟩
  · split
    · exact ⟨[], by simp⟩
    · split
      · split
        · exact ⟨_, rfl⟩
        · exact ⟨[], by simp⟩
      · split
        · split
          · exact ⟨_, rfl⟩
          · split
            · exact ⟨_, rfl⟩
            · exact ⟨_, rfl⟩
        · exact ⟨[], by simp⟩
/-- A tokeniser step never appends an empty RawString: the flush on a
variable opener is guarded by a non empty current accumulator. -/
theorem tokeniseStep_no_empty_raw (st : TokSt) (c : Char)
    (h : ∀ v, Tok.RawString v ∈ st.acc → ¬ v = "") :
    ∀ v, Tok.RawString v ∈ (tokeniseStep st c).acc → ¬ v = "" := by
  have hmk : ∀ l : List Char, ¬ l = [] → ¬ String.mk l = "" := fun l hl he =>
    hl (by simpa using congrArg String.data he)
  intro v hv
  unfold tokeniseStep at hv
  split at hv
  · split at hv
    · exact h v hv
    · split at hv
      · rcases List.mem_append.mp hv with hv2 | hv2
        · exact h v hv2
        · split at hv2
          · have hveq := List.mem_singleton.mp hv2
            injection hveq with hveq2
            subst hveq2
            apply hmk
            assumption
          · simp at hv2
      · exact h v hv
  · split at hv
    · exact h v hv
    · split at hv
      · split at hv
        · rcases List.mem_append.mp hv with hv2 | hv2
          · exact h v hv2
          · simp at hv2
        · exact h v hv
      · split at hv
        · split at hv
          · rcases List.mem_append.mp hv with hv2 | hv2
            · exact h v hv2
            · simp at hv2
          · split at hv
            · rcases List.mem_append.mp hv with hv2 | hv2
              · exact h v hv2
              · simp at hv2
            · rcases List.mem_append.mp hv with hv2 | hv2
              · exact h v hv2
              · simp at hv2
        · exact h v hv
/-- The token accumulator of a whole run extends any starting accumulator. -/
theorem foldl_tokeniseStep_acc_prefix (cs : List Char) (st : TokSt) :
    ∃ t, (cs.foldl tokeniseStep st).acc = st.acc ++ t := by
  induction cs generalizing st with
  | nil => exact ⟨[], by simp⟩
  | cons c rest ih =>
    obtain ⟨t1, h1⟩ := tokeniseStep_acc_prefix st c
    obtain ⟨t2, h2⟩ := ih (tokeniseStep st c)
    exact ⟨t1 ++ t2, by rw [List.foldl_cons, h2, h1, List.append_assoc]⟩
/-- A whole tokeniser run preserves the absence of empty RawStrings. -/
theorem foldl_tokeniseStep_no_empty_raw (cs : List Char) (st : TokSt)
    (h : ∀ v, Tok.RawString v ∈ st.acc → ¬ v = "") :
    ∀ v, Tok.RawString v ∈ (cs.foldl tokeniseStep st).acc → ¬ v = "" := by
  induction cs generalizing st with
  | nil => exact h
  | cons a rest ih =>
    rw [List.foldl_cons]
    exact ih _ (tokeniseStep_no_empty_raw st a h)
/-- If a token list has no falsy RawString and some variable name missing
from the context, render fails with an unknown token error for a missing
name, whatever has been accumulated so far. -/
theorem renderAux_missing (l : List Tok) (ctx : List (String × String))
    (hraw : ∀ v, Tok.RawString v ∈ l → ¬ v = "")
    (hmiss : ∃ n, Tok.Token n ∈ l ∧ ctx.lookup n = none) :
    ∀ acc, ∃ m, renderAux l ctx acc = .error (.unknownToken m) ∧ ctx.lookup m = none := by
  induction l with
  | nil =>
    obtain ⟨n, hn, _⟩ := hmiss
    simp at hn
  | cons tk rest ih =>
    intro acc
    cases tk with
    | RawString v =>
      have hv : ¬ v = "" := hraw v (by simp)
      have hrawr : ∀ v2, Tok.RawString v2 ∈ rest → ¬ v2 = "" := fun v2 hv2 => hraw v2 (by simp [hv2])
      have hmr : ∃ n, Tok.Token n ∈ rest ∧ ctx.lookup n = none := by
        obtain ⟨n, hn, hln⟩ := hmiss
        exact ⟨n, by simpa using hn, hln⟩
      simpa [renderAux, hv] using ih hrawr hmr (acc ++ v)
    | Token n =>
      cases hlk : ctx.lookup n with
      | none => exact ⟨n, by simp [renderAux, hlk], hlk⟩
      | some val =>
        obtain ⟨m, hm, hlm⟩ := hmiss
        have hmr : Tok.Token m ∈ rest := by
          rcases List.mem_cons.mp hm with he | hr
          · injection he with he2
            subst he2
            rw [hlk] at hlm
            simp at hlm
          · exact hr
        have hrawr : ∀ v2, Tok.RawString v2 ∈ rest → ¬ v2 = "" := fun v2 hv2 => hraw v2 (by simp [hv2])
        simpa [renderAux, hlk] using ih hrawr ⟨m, hmr, hlm⟩ (acc ++ val)
/-- C10: a dollar followed by a character that is not an opening brace,
not alphanumeric, not an underscore, not a backslash and not a dollar
yields a variable token with the empty name, which render then rejects
with an unknown variable error for every context without the empty name;
the example input dollar slash x produces exactly that token list, while a
lone trailing dollar is silently dropped. -/
theorem c10_dollar_empty_variable :
    (∀ (c : Char) (t : List Char) (l : List Tok),
      c.isAlphanum = false → ¬ c = '_' → ¬ c = '{' → ¬ c = '\\' → ¬ c = '$' →
      tokenise (String.mk ('$' :: c :: t)) = .ok l →
      Tok.Token "" ∈ l ∧
      ∀ ctx : List (String × String), ctx.lookup "" = none →
        ∃ m, render l ctx = .error (.unknownToken m) ∧ ctx.lookup m = none) ∧
    tokenise "$/x" = .ok [Tok.Token "", Tok.RawString "/x"] ∧
    tokenise "$" = .ok [] := by
  refine ⟨?_, by decide, by decide⟩
  intro c t l h1 h2 h3 h4 h5 htok
  have hst2 : ('$' :: c :: t).foldl tokeniseStep ⟨[], [], false, false, false⟩ =
      t.foldl tokeniseStep ⟨[Tok.Token ""], [c], false, false, false⟩ := by
    rw [List.foldl_cons, List.foldl_cons]
    congr 1
    simp [tokeniseStep, h1, h2, h3, h4, h5]
  simp only [tokenise, str_data_mk] at htok
  rw [hst2] at htok
  set stF := t.foldl tokeniseStep ⟨[Tok.Token ""], [c], false, false, false⟩ with hstF
  obtain ⟨tacc, hacc⟩ := foldl_tokeniseStep_acc_prefix t ⟨[Tok.Token ""], [c], false, false, false⟩
  have hraw : ∀ v, Tok.RawString v ∈ stF.acc → ¬ v = "" :=
    foldl_tokeniseStep_no_empty_raw t _ (by intro v hv; simp at hv)
  split at htok
  · exact absurd htok (by simp)
  · simp only [Except.ok.injEq] at htok
    subst htok
    have hTok : Tok.Token "" ∈ stF.acc := by
      rw [← hstF] at hacc
      rw [hacc]
      exact List.mem_append_left _ (by simp)
    constructor
    · exact List.mem_append_left _ hTok
    · intro ctx hctx
      have hrawAll : ∀ v, Tok.RawString v ∈ stF.acc ++
          (if ¬ stF.curr = [] then
            [if stF.is_var = true then Tok.Token (String.mk stF.curr)
             else Tok.RawString (String.mk stF.curr)] else []) → ¬ v = "" := by
        intro v hv
        rcases List.mem_append.mp hv with hv2 | hv2
        · exact hraw v hv2
        · split at hv2
          · have hveq := List.mem_singleton.mp hv2
            split at hveq
            · simp at hveq
            · injection hveq with hveq2
              subst hveq2
              intro he
              rename_i hguard _
              exact hguard (by simpa using congrArg String.data he)
          · simp at hv2
      exact renderAux_missing _ ctx hrawAll
        ⟨"", List.mem_append_left _ hTok, hctx⟩ ""

/-- Witness for C10 at the concrete input dollar slash x with an empty
render context. -/
theorem c10_dollar_empty_variable_witness :
    Tok.Token "" ∈ [Tok.Token "", Tok.RawString "/x"] ∧
    ∃ m, render [Tok.Token "", Tok.RawString "/x"] [] = .error (.unknownToken m) ∧
      ([] : List (String × String)).lookup m = none := by
  have h := c10_dollar_empty_variable.1 '/' ['x'] [Tok.Token "", Tok.RawString "/x"]
    (by decide) (by decide) (by decide) (by decide) (by decide) (by decide)
  exact ⟨h.1, h.2 [] (by decide)⟩

/-! ## Claims C8 and C9: completion error handling and key filtering -/

/-- Bind on a successful Except value. -/
theorem except_bind_ok {α β : Type} (a : α) (f : α → Except PyExc β) :
    (Except.ok a : Except PyExc α) >>= f = f a := rfl

/-- Bind on a failed Except value. -/
theorem except_bind_error {α β : Type} (e : PyExc) (f : α → Except PyExc β) :
    (Except.error e : Except PyExc α) >>= f = .error e := rfl

/-- Mapping the completion constructor over candidates succeeds and uses
the one start position when the position computation succeeds. -/
theorem mapM_completion_ok (res : List String) (k : Except PyExc Int) (pos : Int)
    (h : k = .ok pos) :
    (res.mapM (fun r => do
      let pos2 ← k
      pure (CompletionItem.completion r pos2))) =
    .ok (res.map (fun r => CompletionItem.completion r pos)) := by
  subst h
  induction res with
  | nil => rfl
  | cons a rest ih =>
    rw [List.mapM_cons, ih]
    rfl

/-- Every completion item produced by the candidate mapping comes from a
candidate string of the input list. -/
theorem mapM_completion_inv (res : List String) (k : Except PyExc Int)
    (items : List CompletionItem)
    (h : (res.mapM (fun r => do
      let pos2 ← k
      pure (CompletionItem.completion r pos2))) = .ok items) :
    ∀ it ∈ items, ∃ r pos, r ∈ res ∧ it = CompletionItem.completion r pos := by
  induction res generalizing items with
  | nil =>
    simp only [List.mapM_nil] at h
    injection h with h2
    subst h2
    intro it hit
    simp at hit
  | cons a rest ih =>
    rw [List.mapM_cons] at h
    cases k with
    | error e => simp [except_bind_error] at h
    | ok pos =>
      rw [except_bind_ok] at h
      rw [pure_bind] at h
      cases hrest : rest.mapM (fun r => do
          let pos2 ← (Except.ok pos : Except PyExc Int)
          pure (CompletionItem.completion r pos2)) with
      | error e =>
        rw [hrest, except_bind_error] at h
        simp at h
      | ok its =>
        rw [hrest, except_bind_ok] at h
        injection h with h2
        subst h2
        intro it hit
        rcases List.mem_cons.mp hit with rfl | hit2
        · exact ⟨a, pos, by simp, rfl⟩
        · obtain ⟨r, pos2, hr, he⟩ := ih its hrest it hit2
          exact ⟨r, pos2, by simp [hr], he⟩

/-- The special results of a completion request are empty or the single
dot continuation of the trailing path segment. -/
theorem specialAndSearch_specials (ctx : List (String × String)) (current : S3Path)
    (p : String) (specials : List String) (sp : S3Path)
    (h : specialAndSearch ctx current p = .ok (specials, sp)) :
    specials = [] ∨ specials = [pyBasename p ++ "/"] := by
  simp only [specialAndSearch] at h
  split at h
  · cases hn : Cli.normalise_path ctx current (pyDirname p) with
    | error e => rw [hn, except_bind_error] at h; simp at h
    | ok v =>
      rw [hn, except_bind_ok] at h
      injection h with h2
      simp only [Prod.mk.injEq] at h2
      exact Or.inr h2.1.symm
  · cases hn : Cli.normalise_path ctx current p with
    | error e => rw [hn, except_bind_error] at h; simp at h
    | ok v =>
      rw [hn, except_bind_ok] at h
      injection h with h2
      simp only [Prod.mk.injEq] at h2
      exact Or.inl h2.1.symm

/-- Without a trailing dot segment there are no special results. -/
theorem specialAndSearch_not_dot (ctx : List (String × String)) (current : S3Path)
    (p : String) (specials : List String) (sp : S3Path)
    (hdot : ¬ (pyBasename p = "." ∨ pyBasename p = ".."))
    (h : specialAndSearch ctx current p = .ok (specials, sp)) :
    specials = [] := by
  simp only [specialAndSearch] at h
  rw [if_neg (by intro hc; exact hdot hc.1)] at h
  cases hn : Cli.normalise_path ctx current p with
  | error e => rw [hn, except_bind_error] at h; simp at h
  | ok v =>
    rw [hn, except_bind_ok] at h
    injection h with h2
    simp only [Prod.mk.injEq] at h2
    exact h2.1.symm

/-- C8 amended: when the backend listing raises a ClientError, remote path
completion swallows it: it returns successfully with the cache unchanged
and only the special dot continuations as candidates, which are none at
all when the partial path does not end in a dot segment.  Backend errors
other than ClientError are not caught (see the counterexample). -/
theorem c8_amended (boto : BotoModel) (st : CacheMap) (ctx : List (String × String))
    (current : S3Path) (partialStr : String) (doc : Document) (ak : Bool)
    (specials : List String) (sp : S3Path) (pos : Int)
    (hnp : ¬ partialStr = "~")
    (hsp : specialAndSearch ctx current partialStr = .ok (specials, sp))
    (hls : S3Client.ls boto st sp (fragOf partialStr) = .error .clientError)
    (hpos : getPathStartPos partialStr doc = .ok pos) :
    CliCompleter.complete_s3_path boto st ctx current partialStr doc ak =
      .ok (st, specials.map (fun r => CompletionItem.completion r pos)) ∧
    (¬ (pyBasename partialStr = "." ∨ pyBasename partialStr = "..") → specials = []) := by
  refine ⟨?_, fun hdot => specialAndSearch_not_dot _ _ _ _ _ hdot hsp⟩
  unfold CliCompleter.complete_s3_path
  rw [if_neg hnp, hsp]
  simp only [except_bind_ok]
  rw [hls]
  rw [mapM_completion_ok specials _ pos hpos]
  rfl

/-- C9: for a path command that does not accept arbitrary keys (it is in
EXPECTS_S3_PATH but not in EXPECTS_KEY, like cd, ls and ll), every
completion candidate is the tilde continuation, a special dot
continuation, or comes from a non terminal (is_key false) entry of the
actual backend listing; terminal entries are never offered. -/
theorem c9_no_terminal_candidates (cmd : String) (boto : BotoModel) (st : CacheMap)
    (ctx : List (String × String)) (current : S3Path) (partialStr : String) (doc : Document)
    (st' : CacheMap) (items : List CompletionItem)
    (hin : cmd ∈ CliCompleter.EXPECTS_S3_PATH)
    (hout : ¬ cmd ∈ CliCompleter.EXPECTS_KEY)
    (h : CliCompleter.complete_s3_path boto st ctx current partialStr doc
        (CliCompleter.EXPECTS_KEY.contains cmd) = .ok (st', items)) :
    ∀ it ∈ items,
      it = CompletionItem.rawText "~/" ∨
      (∃ pos, it = CompletionItem.completion (pyBasename partialStr ++ "/") pos) ∨
      (∃ sp specials st2 results r pos,
        specialAndSearch ctx current partialStr = .ok (specials, sp) ∧
        S3Client.ls boto st sp (fragOf partialStr) = .ok (st2, results) ∧
        r ∈ results ∧ r.is_key = false ∧
        it = CompletionItem.completion (shlexQuote (lstripSlashes r.path_string)) pos) := by
  have hak : CliCompleter.EXPECTS_KEY.contains cmd = false := by simpa using hout
  rw [hak] at h
  unfold CliCompleter.complete_s3_path at h
  by_cases hp : partialStr = "~"
  · rw [if_pos hp] at h
    injection h with h2
    injection h2 with h3 h4
    subst h4
    intro it hit
    rcases List.mem_singleton.mp hit with rfl
    exact Or.inl rfl
  · rw [if_neg hp] at h
    cases hsp : specialAndSearch ctx current partialStr with
    | error e =>
      rw [hsp, except_bind_error] at h
      simp at h
    | ok pr =>
      obtain ⟨specials, sp⟩ := pr
      rw [hsp] at h
      simp only [except_bind_ok] at h
      cases hls : S3Client.ls boto st sp (fragOf partialStr) with
      | ok pr2 =>
        obtain ⟨st2, results⟩ := pr2
        rw [hls] at h
        dsimp only at h
        cases hm : (specials ++ (results.filter (fun r => false || ! r.is_key)).map
            (fun r => shlexQuote (lstripSlashes r.path_string))).mapM (fun r => do
              let pos2 ← getPathStartPos partialStr doc
              pure (CompletionItem.completion r pos2)) with
        | error e =>
          rw [hm, except_bind_error] at h
          simp at h
        | ok its =>
          rw [hm, except_bind_ok] at h
          injection h with h2
          injection h2 with h3 h4
          subst h4
          intro it hit
          obtain ⟨r, pos, hr, he⟩ := mapM_completion_inv _ _ _ hm it hit
          rcases List.mem_append.mp hr with hrs | hrh
          · rcases specialAndSearch_specials _ _ _ _ _ hsp with rfl | rfl
            · simp at hrs
            · rcases List.mem_singleton.mp hrs with rfl
              exact Or.inr (Or.inl ⟨pos, he⟩)
          · obtain ⟨r2, hr2, he2⟩ := List.mem_map.mp hrh
            have hr2f := List.mem_filter.mp hr2
            refine Or.inr (Or.inr ⟨sp, specials, st2, results, r2, pos, ?_, ?_, ?_, ?_, ?_⟩)
            · exact rfl
            · exact hls
            · exact hr2f.1
            · have := hr2f.2
              simp only [Bool.false_or] at this
              simpa using this
            · rw [← he2] at he
              exact he
      | error e =>
        rw [hls] at h
        cases e with
        | clientError =>
          dsimp only at h
          cases hm : specials.mapM (fun r => do
              let pos2 ← getPathStartPos partialStr doc
              pure (CompletionItem.completion r pos2)) with
          | error e2 =>
            rw [hm, except_bind_error] at h
            simp at h
          | ok its =>
            rw [hm, except_bind_ok] at h
            injection h with h2
            injection h2 with h3 h4
            subst h4
            intro it hit
            obtain ⟨r, pos, hr, he⟩ := mapM_completion_inv _ _ _ hm it hit
            rcases specialAndSearch_specials _ _ _ _ _ hsp with rfl | rfl
            · simp at hr
            · rcases List.mem_singleton.mp hr with rfl
              exact Or.inr (Or.inl ⟨pos, he⟩)
        | unclosedVariable => simp at h
        | unknownToken n => simp at h
        | attributeError => simp at h
        | connectionError => simp at h
        | typeError => simp at h
        | indexError => simp at h

/-- Witness for C8 at a concrete instance: a backend raising ClientError
and a plain partial path, giving an empty candidate list. -/
theorem c8_amended_witness :
    CliCompleter.complete_s3_path ⟨.error .clientError, fun _ _ => .error .clientError⟩
      [] [] ⟨some "b", none⟩ "x" ⟨"ls x"⟩ false = .ok ([], []) :=
  (c8_amended ⟨.error .clientError, fun _ _ => .error .clientError⟩ [] [] ⟨some "b", none⟩
    "x" ⟨"ls x"⟩ false [] ⟨some "b", some "x"⟩ (-1) (by decide) (by decide) (by decide)
    (by decide)).1

/-- Witness for C9 at a concrete instance: a cd completion over a listing
holding one prefix and one key offers only the prefix. -/
theorem c9_no_terminal_candidates_witness :
    CompletionItem.completion "p1/" 0 = CompletionItem.rawText "~/" ∨
    (∃ pos, CompletionItem.completion "p1/" 0 =
      CompletionItem.completion (pyBasename "a/" ++ "/") pos) ∨
    (∃ sp specials st2 results r pos,
      specialAndSearch [] ⟨some "b", none⟩ "a/" = .ok (specials, sp) ∧
      S3Client.ls ⟨.ok [], fun _ _ => .ok [⟨["a/p1/"], [("a/k1.txt", "d")]⟩]⟩ [] sp
        (fragOf "a/") = .ok (st2, results) ∧
      r ∈ results ∧ r.is_key = false ∧
      CompletionItem.completion "p1/" 0 =
        CompletionItem.completion (shlexQuote (lstripSlashes r.path_string)) pos) :=
  c9_no_terminal_candidates "cd" ⟨.ok [], fun _ _ => .ok [⟨["a/p1/"], [("a/k1.txt", "d")]⟩]⟩
    [] [] ⟨some "b", none⟩ "a/" ⟨"cd a/"⟩
    [(("s3://b/a", false), [S3Base.S3Prefix "p1/", S3Base.S3Key "k1.txt" (some "d")])]
    [CompletionItem.completion "p1/" 0]
    (by decide) (by decide) (by decide)
    (CompletionItem.completion "p1/" 0) (by simp)

/-! ## Claims C5, C6 and C7: the cache invalidation walk -/

/-- dirname either leaves a string unchanged or strictly shortens it;
this is what makes the invalidation walk terminate. -/
theorem dirnameL_eq_or_lt (l : List Char) :
    dirnameL l = l ∨ (dirnameL l).length < l.length := by
  unfold dirnameL
  set headRev := l.reverse.dropWhile (fun c => ¬ c = '/') with hhr
  have hsuf : headRev <:+ l.reverse := by
    rw [hhr]; exact List.dropWhile_suffix _
  have hlen : headRev.length ≤ l.length := by
    simpa using hsuf.length_le
  by_cases hall : headRev.all (fun c => c = '/')
  · simp only [hall, if_pos]
    rcases Nat.lt_or_ge headRev.length l.length with h | h
    · right; simpa using h
    · left
      have : headRev = l.reverse := hsuf.eq_of_length (by simpa using Nat.le_antisymm hlen h)
      simp [this]
  · simp only [hall, if_neg, Bool.not_eq_true]
    right
    have hne : ¬ headRev = [] := by
      intro h; rw [h] at hall; simp at hall
    obtain ⟨c, cs, hcons⟩ := List.exists_cons_of_ne_nil hne
    have hc : c = '/' := by
      have := List.head?_dropWhile_not (fun c => ¬ c = '/') l.reverse
      rw [← hhr, hcons] at this
      simpa using this
    have : (headRev.dropWhile (fun c => c = '/')).length < headRev.length := by
      rw [hcons, List.dropWhile_cons]
      simp only [hc, decide_True, if_pos]
      exact Nat.lt_of_le_of_lt (by simpa using (List.dropWhile_suffix (l := cs) _).length_le)
        (by simp)
    calc (headRev.dropWhile (fun c => c = '/')).reverse.length
        = (headRev.dropWhile (fun c => c = '/')).length := by simp
      _ < headRev.length := this
      _ ≤ l.length := hlen

/-- The fueled walk does not depend on the fuel once it exceeds the
length of the path. -/
theorem invalidateWalkAux_fuel (bucket : Option String) (f1 f2 : Nat) (p : List Char)
    (h1 : p.length < f1) (h2 : p.length < f2) :
    invalidateWalkAux bucket f1 p = invalidateWalkAux bucket f2 p := by
  induction f1 generalizing p f2 with
  | zero => omega
  | succ n ih =>
    cases f2 with
    | zero => omega
    | succ m =>
      simp only [invalidateWalkAux]
      by_cases hd : dirnameL p = p
      · rw [if_pos hd, if_pos hd]
      · rw [if_neg hd, if_neg hd]
        have hlt : (dirnameL p).length < p.length := (dirnameL_eq_or_lt p).resolve_left hd
        rw [ih m (dirnameL p) (by omega) (by omega)]

/-- The invalidation walk satisfies the loop equation of the source: emit
both fragment mode keys for the current canonical path, stop at a dirname
fixed point, otherwise continue on the dirname. -/
theorem invalidateWalk_eq (bucket : Option String) (p : List Char) :
    invalidateWalk bucket p =
      (if dirnameL p = p
       then ([(S3Path.canonical ⟨bucket, some (String.mk p)⟩, true),
              (S3Path.canonical ⟨bucket, some (String.mk p)⟩, false)], p)
       else ([(S3Path.canonical ⟨bucket, some (String.mk p)⟩, true),
              (S3Path.canonical ⟨bucket, some (String.mk p)⟩, false)] ++
               (invalidateWalk bucket (dirnameL p)).1,
             (invalidateWalk bucket (dirnameL p)).2)) := by
  show invalidateWalkAux bucket (p.length + 1) p = _
  conv_lhs => rw [invalidateWalkAux]
  by_cases hd : dirnameL p = p
  · rw [if_pos hd, if_pos hd]
  · rw [if_neg hd, if_neg hd]
    have hlt : (dirnameL p).length < p.length := (dirnameL_eq_or_lt p).resolve_left hd
    have hfa : invalidateWalkAux bucket p.length (dirnameL p) =
        invalidateWalkAux bucket ((dirnameL p).length + 1) (dirnameL p) :=
      invalidateWalkAux_fuel bucket p.length ((dirnameL p).length + 1) (dirnameL p)
        (by omega) (by omega)
    rw [hfa]
    rfl

/-- The walk stops exactly at a dirname fixed point. -/
theorem invalidateWalk_fin_fixed (bucket : Option String) (p : List Char) :
    dirnameL (invalidateWalk bucket p).2 = (invalidateWalk bucket p).2 := by
  generalize hn : p.length = n
  induction n using Nat.strong_induction_on generalizing p with
  | _ n ih =>
    rw [invalidateWalk_eq]
    by_cases hd : dirnameL p = p
    · rw [if_pos hd]
      exact hd
    · rw [if_neg hd]
      have hlt : (dirnameL p).length < p.length := (dirnameL_eq_or_lt p).resolve_left hd
      exact ih ((dirnameL p).length) (by omega) (dirnameL p) rfl

/-- Unfolding a slash join over a cons with a non empty tail. -/
theorem joinSlashL_cons (x : List Char) (xs : List (List Char)) (h : ¬ xs = []) :
    joinSlashL (x :: xs) = x ++ '/' :: joinSlashL xs := by
  cases xs with
  | nil => exact absurd rfl h
  | cons y ys => rfl

/-- Unfolding a slash join over a final appended segment. -/
theorem joinSlashL_append_singleton (init : List (List Char)) (lastSeg : List Char)
    (h : ¬ init = []) :
    joinSlashL (init ++ [lastSeg]) = joinSlashL init ++ '/' :: lastSeg := by
  induction init with
  | nil => exact absurd rfl h
  | cons x xs ih =>
    cases xs with
    | nil => rfl
    | cons y ys =>
      have h2 : ¬ (y :: ys : List (List Char)) = [] := by simp
      calc joinSlashL ((x :: y :: ys) ++ [lastSeg])
          = x ++ '/' :: joinSlashL ((y :: ys) ++ [lastSeg]) := by
            rw [List.cons_append, joinSlashL_cons x _ (by simp)]
        _ = x ++ '/' :: (joinSlashL (y :: ys) ++ '/' :: lastSeg) := by rw [ih h2]
        _ = (x ++ '/' :: joinSlashL (y :: ys)) ++ '/' :: lastSeg := by simp
        _ = joinSlashL (x :: y :: ys) ++ '/' :: lastSeg := by rw [joinSlashL_cons x _ h2]

/-- A slash join of some non empty segments is non empty. -/
theorem joinSlashL_ne_nil (segs : List (List Char)) (hne : ¬ segs = [])
    (h : ∀ x ∈ segs, ¬ x = []) : ¬ joinSlashL segs = [] := by
  cases segs with
  | nil => exact absurd rfl hne
  | cons x xs =>
    cases xs with
    | nil => exact h x (by simp)
    | cons y ys =>
      rw [joinSlashL_cons x _ (by simp)]
      simp

/-- The last character of a slash join of slash free non empty segments
is not a slash. -/
theorem joinSlashL_getLast?_ne_slash (segs : List (List Char)) (hne : ¬ segs = [])
    (h : ∀ x ∈ segs, ¬ x = [] ∧ '/' ∉ x) :
    ∃ ch, (joinSlashL segs).getLast? = some ch ∧ ¬ ch = '/' := by
  induction segs using List.reverseRecOn with
  | nil => exact absurd rfl hne
  | append_singleton init lastSeg ih =>
    have hlast := h lastSeg (by simp)
    have hgl : (joinSlashL (init ++ [lastSeg])).getLast? = lastSeg.getLast? := by
      cases hi : init with
      | nil => rfl
      | cons i is =>
        rw [← hi, joinSlashL_append_singleton init lastSeg (by simp [hi])]
        rw [show ('/' :: lastSeg) = ['/'] ++ lastSeg from rfl, ← List.append_assoc]
        exact List.getLast?_append_of_ne_nil _ hlast.1
    cases hl : lastSeg.getLast? with
    | none =>
      rw [List.getLast?_eq_none_iff] at hl
      exact absurd hl hlast.1
    | some ch =>
      refine ⟨ch, hgl ▸ hl, fun hc => ?_⟩
      have hm : ch ∈ lastSeg := List.mem_of_getLast?_eq_some hl
      exact hlast.2 (hc ▸ hm)

/-- dropWhile over an append whose left part is dropped entirely. -/
theorem dropWhile_append_all (p : Char → Bool) (l1 l2 : List Char) (h : ∀ x ∈ l1, p x) :
    (l1 ++ l2).dropWhile p = l2.dropWhile p := by
  induction l1 with
  | nil => rfl
  | cons a as ih =>
    have ha : p a := h a (by simp)
    have has : ∀ x ∈ as, p x = true := fun x hx => h x (by simp [hx])
    simp [List.dropWhile_cons, ha, ih has]

/-- dirname strips exactly the last segment of a slash separated path
built from non empty slash free segments. -/
theorem dirnameL_join (init : List (List Char)) (lastSeg : List Char)
    (hl : ¬ lastSeg = []) (hl2 : '/' ∉ lastSeg)
    (hinit : ∀ x ∈ init, ¬ x = [] ∧ '/' ∉ x) :
    dirnameL (joinSlashL (init ++ [lastSeg])) = joinSlashL init := by
  cases hinitc : init with
  | nil =>
    have hjoin : joinSlashL ([] ++ [lastSeg]) = lastSeg := rfl
    rw [hjoin]
    have hdrop : lastSeg.reverse.dropWhile (fun c => ¬ c = '/') = [] := by
      rw [List.dropWhile_eq_nil_iff]
      intro x hx
      simp only [decide_eq_true_eq]
      exact fun hc => hl2 (hc ▸ List.mem_reverse.mp hx)
    unfold dirnameL
    rw [hdrop]
    rfl
  | cons i is =>
    rw [← hinitc]
    have hne : ¬ init = [] := by rw [hinitc]; simp
    rw [joinSlashL_append_singleton init lastSeg hne]
    unfold dirnameL
    have hrev : (joinSlashL init ++ '/' :: lastSeg).reverse =
        lastSeg.reverse ++ '/' :: (joinSlashL init).reverse := by
      simp
    rw [hrev]
    have hdrop : (lastSeg.reverse ++ '/' :: (joinSlashL init).reverse).dropWhile
        (fun c => ¬ c = '/') = '/' :: (joinSlashL init).reverse := by
      rw [dropWhile_append_all _ _ _ (fun x hx => by
        simp only [decide_eq_true_eq]
        exact fun hc => hl2 (hc ▸ List.mem_reverse.mp hx))]
      simp [List.dropWhile_cons]
    rw [hdrop]
    obtain ⟨ch, hch, hchn⟩ := joinSlashL_getLast?_ne_slash init hne
      (fun x hx => hinit x hx)
    have hall : ('/' :: (joinSlashL init).reverse).all (fun c => c = '/') = false := by
      rw [List.all_eq_false]
      exact ⟨ch, by simp [List.mem_of_getLast?_eq_some hch], by simpa using hchn⟩
    rw [hall]
    simp only [Bool.false_eq_true, if_false]
    have hrevhead : (joinSlashL init).reverse.head? = some ch := by
      rw [List.head?_reverse]
      exact hch
    obtain ⟨tl, htl⟩ : ∃ tl, (joinSlashL init).reverse = ch :: tl := by
      cases hr : (joinSlashL init).reverse with
      | nil => rw [hr] at hrevhead; simp at hrevhead
      | cons a as =>
        rw [hr] at hrevhead
        simp at hrevhead
        exact ⟨as, by rw [hrevhead]⟩
    rw [List.dropWhile_cons]
    simp only [decide_eq_true_eq, if_neg (by simpa using hchn)]
    rw [htl, List.dropWhile_cons]
    simp only [decide_eq_true_eq, if_neg (by simpa using hchn)]
    rw [← htl]
    simp

/-- Walking a slash separated path built from non empty slash free
segments ends on the empty path, and the collected cache keys cover both
fragment modes of every prefix of the segment list, down to and including
the empty (bucket root) prefix. -/
theorem invalidateWalk_join (bucket : Option String) (segs : List (List Char))
    (h : ∀ x ∈ segs, ¬ x = [] ∧ '/' ∉ x) :
    (invalidateWalk bucket (joinSlashL segs)).2 = [] ∧
    ∀ i, i ≤ segs.length → ∀ fr : Bool,
      (S3Path.canonical ⟨bucket, some (String.mk (joinSlashL (segs.take i)))⟩, fr) ∈
        (invalidateWalk bucket (joinSlashL segs)).1 := by
  induction segs using List.reverseRecOn with
  | nil =>
    have hfix : dirnameL (joinSlashL ([] : List (List Char))) = joinSlashL [] := rfl
    constructor
    · rw [invalidateWalk_eq, if_pos hfix]
      rfl
    · intro i hi fr
      have hi0 : i = 0 := Nat.le_zero.mp hi
      subst hi0
      rw [invalidateWalk_eq, if_pos hfix]
      cases fr <;> simp
  | append_singleton init lastSeg ih =>
    have hlast := h lastSeg (by simp)
    have hinit : ∀ x ∈ init, ¬ x = [] ∧ '/' ∉ x := fun x hx => h x (by simp [hx])
    have hd : dirnameL (joinSlashL (init ++ [lastSeg])) = joinSlashL init :=
      dirnameL_join init lastSeg hlast.1 hlast.2 hinit
    have hne : ¬ dirnameL (joinSlashL (init ++ [lastSeg])) = joinSlashL (init ++ [lastSeg]) := by
      rw [hd]
      intro hc
      by_cases hi : init = []
      · subst hi
        simp only [List.nil_append] at hc
        exact hlast.1 hc.symm
      · rw [joinSlashL_append_singleton init lastSeg hi] at hc
        have hlen := congrArg List.length hc
        simp at hlen
    have hwalk := invalidateWalk_eq bucket (joinSlashL (init ++ [lastSeg]))
    rw [if_neg hne, hd] at hwalk
    constructor
    · rw [hwalk]
      exact (ih hinit).1
    · intro i hi fr
      rw [hwalk]
      simp only [List.length_append, List.length_singleton] at hi
      rcases Nat.lt_or_ge i (init.length + 1) with hlt | hge
      · have hi2 : i ≤ init.length := by omega
        rw [List.take_append_of_le_length hi2]
        exact List.mem_append_right _ ((ih hinit).2 i hi2 fr)
      · have hieq : i = init.length + 1 := by omega
        subst hieq
        rw [List.take_of_length_le (by simp)]
        cases fr <;> simp

/-- C5: for a path with a bucket and a non empty slash separated key,
invalidating the prefix chain removes the cache entries for the path and
for every ancestor prefix up to and including the bucket root, in both
fragment modes. -/
theorem c5_invalidate_prefix_chain (b : String) (segs : List String) (st : CacheMap)
    (hb : ¬ b = "") (hne : ¬ segs = [])
    (hv : ∀ s ∈ segs, ¬ s.data = [] ∧ '/' ∉ s.data) :
    ∃ st' p',
      S3Client.invalidate_cache st ⟨some b, some (joinSegs segs)⟩ = .ok (st', p') ∧
      ∀ i, i ≤ segs.length → ∀ fr : Bool,
        cacheGet st' (S3Path.canonical ⟨some b, some (joinSegs (segs.take i))⟩, fr) = none := by
  refine ⟨_, _, rfl, ?_⟩
  intro i hi fr
  apply cacheGet_foldl_erase
  have hmapv : ∀ x ∈ segs.map String.data, ¬ x = [] ∧ '/' ∉ x := by
    intro x hx
    obtain ⟨s, hs, rfl⟩ := List.mem_map.mp hx
    exact hv s hs
  have hcov := (invalidateWalk_join (some b) (segs.map String.data) hmapv).2 i
    (by simpa using hi) fr
  rw [← List.map_take] at hcov
  exact hcov

/-- C6 amended: on a path whose key is present, the invalidation walk
terminates (returning successfully) by stopping at the fixed point where
dirname no longer changes the key; on a bucket root path whose key is
None, the walk raises TypeError from os.path.dirname(None) instead of
never failing. -/
theorem c6_amended :
    (∀ (st : CacheMap) (b : Option String) (p : String),
      ∃ st' q, S3Client.invalidate_cache st ⟨b, some p⟩ = .ok (st', ⟨b, some q⟩) ∧
        pyDirname q = q) ∧
    (∀ (st : CacheMap) (b : Option String),
      S3Client.invalidate_cache st ⟨b, none⟩ = .error .typeError) := by
  constructor
  · intro st b p
    refine ⟨_, String.mk (invalidateWalk b p.data).2, rfl, ?_⟩
    show String.mk (dirnameL (invalidateWalk b p.data).2) =
      String.mk (invalidateWalk b p.data).2
    rw [invalidateWalk_fin_fixed]
  · intro st b
    rfl

/-- C7 amended: the walk aliases its argument instead of copying it: the
bucket field is never changed, but the key field is overwritten with the
terminal value of the dirname chain, which is the empty string for a
normal slash separated key. -/
theorem c7_amended :
    (∀ (st : CacheMap) (b : Option String) (p : String),
      ∃ st' q, S3Client.invalidate_cache st ⟨b, some p⟩ = .ok (st', ⟨b, some q⟩)) ∧
    (∀ (st : CacheMap) (b : Option String) (segs : List String),
      ¬ segs = [] → (∀ s ∈ segs, ¬ s.data = [] ∧ '/' ∉ s.data) →
      ∃ st', S3Client.invalidate_cache st ⟨b, some (joinSegs segs)⟩ =
        .ok (st', ⟨b, some ""⟩)) := by
  constructor
  · intro st b p
    exact ⟨_, _, rfl⟩
  · intro st b segs hne hv
    have hmapv : ∀ x ∈ segs.map String.data, ¬ x = [] ∧ '/' ∉ x := by
      intro x hx
      obtain ⟨s, hs, rfl⟩ := List.mem_map.mp hx
      exact hv s hs
    have hfin : (invalidateWalk b (joinSegs segs).data).2 = [] :=
      (invalidateWalk_join b (segs.map String.data) hmapv).1
    refine ⟨(invalidateWalk b (joinSegs segs).data).1.foldl (fun s k => cacheErase s k) st, ?_⟩
    have h2 : S3Client.invalidate_cache st ⟨b, some (joinSegs segs)⟩ =
        .ok ((invalidateWalk b (joinSegs segs).data).1.foldl (fun s k => cacheErase s k) st,
             ⟨b, some (String.mk (invalidateWalk b (joinSegs segs).data).2)⟩) := rfl
    rw [h2, hfin]

/-- Witness for C5 at the concrete path b/a/x with a populated cache. -/
theorem c5_invalidate_prefix_chain_witness :
    ∃ st' p',
      S3Client.invalidate_cache [(("s3://b/a", true), [S3Base.S3Prefix "x"])]
        ⟨some "b", some (joinSegs ["a", "x"])⟩ = .ok (st', p') ∧
      ∀ i, i ≤ (["a", "x"] : List String).length → ∀ fr : Bool,
        cacheGet st' (S3Path.canonical ⟨some "b", some (joinSegs ((["a", "x"] : List String).take i))⟩, fr) = none :=
  c5_invalidate_prefix_chain "b" ["a", "x"] [(("s3://b/a", true), [S3Base.S3Prefix "x"])]
    (by decide) (by decide) (by decide)

/-- Witness for C7 at the concrete key a/x. -/
theorem c7_amended_witness :
    ∃ st', S3Client.invalidate_cache [] ⟨some "b", some (joinSegs ["a", "x"])⟩ =
      .ok (st', ⟨some "b", some ""⟩) :=
  c7_amended.2 [] (some "b") ["a", "x"] (by decide) (by decide)

/-- C7 counterexample: after invalidating b/a/b the path argument ends
with key an empty string, not its original value, so the argument is
mutated in place. -/
theorem c7_counterexample :
    S3Client.invalidate_cache [] ⟨some "b", some "a/b"⟩ = .ok ([], ⟨some "b", some ""⟩) ∧
    ¬ (S3Path.mk (some "b") (some "")) = ⟨some "b", some "a/b"⟩ := by decide

/-- C6 counterexample: on a bucket root path (key None) invalidate_cache
raises TypeError rather than never raising. -/
theorem c6_counterexample :
    S3Client.invalidate_cache [] ⟨some "b", none⟩ = .error .typeError := by decide

theorem splitOnChar_no_sep (c : Char) (l : List Char) (h : c ∉ l) :
    splitOnChar c l = [l] := by
  induction l with
  | nil => rfl
  | cons x xs ih =>
    have hx : ¬ x = c := fun hc => h (by simp [hc])
    have hxs : c ∉ xs := fun hc => h (by simp [hc])
    rw [splitOnChar, if_neg hx, ih hxs]

theorem splitOnChar_append_sep (c : Char) (x r : List Char) (h : c ∉ x) :
    splitOnChar c (x ++ c :: r) = x :: splitOnChar c r := by
  induction x with
  | nil => simp [splitOnChar]
  | cons a as ih =>
    have ha : ¬ a = c := fun hc => h (by simp [hc])
    have has : c ∉ as := fun hc => h (by simp [hc])
    rw [List.cons_append, splitOnChar, if_neg ha, ih has]

theorem splitOnChar_join (segs : List (List Char)) (h : ∀ s ∈ segs, '/' ∉ s)
    (hne : ¬ segs = []) :
    splitOnChar '/' (joinSlashL segs) = segs := by
  induction segs with
  | nil => exact absurd rfl hne
  | cons x xs ih =>
    cases xs with
    | nil => exact splitOnChar_no_sep '/' x (h x (by simp))
    | cons y ys =>
      rw [joinSlashL_cons x _ (by simp)]
      rw [splitOnChar_append_sep '/' x _ (h x (by simp))]
      rw [ih (fun s hs => h s (by simp [hs])) (by simp)]

theorem normComps_skip (s : Nat) (acc : List (List Char)) (rest : List (List Char)) :
    normComps s acc ([] :: rest) = normComps s acc rest := by
  rw [normComps, if_pos (Or.inl rfl)]

theorem normComps_valids (s : Nat) (valids : List (List Char))
    (h : ∀ x ∈ valids, ¬ x = [] ∧ ¬ x = ['.'] ∧ ¬ x = ['.', '.']) :
    ∀ acc rest, normComps s acc (valids ++ rest) = normComps s (acc ++ valids) rest := by
  induction valids with
  | nil => intro acc rest; simp
  | cons v vs ih =>
    intro acc rest
    have hvv := h v (by simp)
    rw [List.cons_append, normComps,
      if_neg (by rintro (hc | hc); exact hvv.1 hc; exact hvv.2.1 hc),
      if_pos (Or.inl hvv.2.2)]
    rw [ih (fun x hx => h x (by simp [hx])) (acc ++ [v]) rest, List.append_assoc]
    rfl

theorem normComps_dotdot (s : Nat) (acc : List (List Char)) (hne : ¬ acc = [])
    (hl : ¬ acc.getLast? = some ['.', '.']) :
    normComps s acc [['.', '.']] = acc.dropLast := by
  rw [normComps, if_neg (by rintro (hc | hc) <;> simp at hc),
    if_neg (by
      rintro (hc | hc | hc)
      · exact hc rfl
      · exact hne hc.2
      · exact hl hc),
    if_pos hne]
  rfl

theorem joinSlashL_head_cons (bc : Char) (bs : List Char) (rest : List (List Char)) :
    ∃ tl, joinSlashL ((bc :: bs) :: rest) = bc :: tl := by
  cases rest with
  | nil => exact ⟨bs, rfl⟩
  | cons y ys => exact ⟨bs ++ '/' :: joinSlashL (y :: ys), rfl⟩

theorem stripSlashes_join_valid (segs : List (List Char)) (hne : ¬ segs = [])
    (h : ∀ x ∈ segs, ¬ x = [] ∧ '/' ∉ x) (k : Nat) :
    stripSlashes (String.mk (List.replicate k '/' ++ joinSlashL segs)) =
      String.mk (joinSlashL segs) := by
  obtain ⟨x, xs, rfl⟩ := List.exists_cons_of_ne_nil hne
  have hx := h x (by simp)
  obtain ⟨bc, bs, rfl⟩ := List.exists_cons_of_ne_nil hx.1
  have hbc : ¬ bc = '/' := fun hc => hx.2 (by simp [hc])
  obtain ⟨tl, htl⟩ := joinSlashL_head_cons bc bs xs
  unfold stripSlashes
  refine congrArg String.mk ?_
  have hleft : (List.replicate k '/' ++ joinSlashL ((bc :: bs) :: xs)).dropWhile
      (fun c => c = '/') = joinSlashL ((bc :: bs) :: xs) := by
    rw [dropWhile_append_all _ _ _ (fun c hc => by simp [List.eq_of_mem_replicate hc])]
    rw [htl, List.dropWhile_cons, if_neg (by simpa using hbc)]
  rw [str_data_mk, hleft]
  obtain ⟨ch, hch, hchn⟩ := joinSlashL_getLast?_ne_slash ((bc :: bs) :: xs) (by simp) h
  have hrh : (joinSlashL ((bc :: bs) :: xs)).reverse.head? = some ch := by
    rw [List.head?_reverse]
    exact hch
  obtain ⟨tl2, htl2⟩ : ∃ tl2, (joinSlashL ((bc :: bs) :: xs)).reverse = ch :: tl2 := by
    cases hr : (joinSlashL ((bc :: bs) :: xs)).reverse with
    | nil => rw [hr] at hrh; simp at hrh
    | cons a as =>
      rw [hr] at hrh
      simp at hrh
      exact ⟨as, by rw [hrh]⟩
  rw [htl2, List.dropWhile_cons, if_neg (by simpa using hchn), ← htl2]
  simp

theorem pyNormpath_slash_join (segs : List (List Char)) (hne : ¬ segs = [])
    (h : ∀ s ∈ segs, ¬ s = [] ∧ '/' ∉ s ∧ ¬ s = ['.'] ∧ ¬ s = ['.', '.']) :
    pyNormpath ("/" ++ String.mk (joinSlashL segs)) = String.mk ('/' :: joinSlashL segs) := by
  obtain ⟨x, xs, rfl⟩ := List.exists_cons_of_ne_nil hne
  have hx := h x (by simp)
  obtain ⟨bc, bs, rfl⟩ := List.exists_cons_of_ne_nil hx.1
  have hbc : ¬ bc = '/' := fun hc => hx.2.1 (by simp [hc])
  obtain ⟨tl, htl⟩ := joinSlashL_head_cons bc bs xs
  have hdata : ("/" ++ String.mk (joinSlashL ((bc :: bs) :: xs))).data =
      '/' :: joinSlashL ((bc :: bs) :: xs) := rfl
  unfold pyNormpath
  rw [hdata]
  have hslash : initialSlashesL ('/' :: joinSlashL ((bc :: bs) :: xs)) = 1 := by
    rw [htl]
    unfold initialSlashesL
    dsimp only
    rw [if_pos rfl]
    rw [if_neg hbc]
  rw [hslash]
  have hsplit : splitOnChar '/' ('/' :: joinSlashL ((bc :: bs) :: xs)) =
      [] :: (bc :: bs) :: xs := by
    rw [show ('/' :: joinSlashL ((bc :: bs) :: xs)) =
      [] ++ '/' :: joinSlashL ((bc :: bs) :: xs) from rfl]
    rw [splitOnChar_append_sep '/' [] _ (by simp)]
    rw [splitOnChar_join _ (fun s hs => (h s hs).2.1) (by simp)]
  rw [hsplit]
  dsimp only
  have hval : normComps 1 [] ((bc :: bs) :: xs) = (bc :: bs) :: xs := by
    calc normComps 1 [] ((bc :: bs) :: xs)
        = normComps 1 [] ((bc :: bs) :: xs ++ []) := by simp
      _ = normComps 1 ([] ++ (bc :: bs) :: xs) [] :=
          normComps_valids 1 ((bc :: bs) :: xs)
            (fun s hs => ⟨(h s hs).1, (h s hs).2.2.1, (h s hs).2.2.2⟩) [] []
      _ = (bc :: bs) :: xs := rfl
  rw [normComps_skip, hval]
  rw [if_neg (by simp)]
  rfl

theorem S3Path_init_join (bb : Option String) (segs : List (List Char))
    (hne : ¬ segs = [])
    (h : ∀ s ∈ segs, ¬ s = [] ∧ '/' ∉ s ∧ ¬ s = ['.'] ∧ ¬ s = ['.', '.']) :
    S3Path.init bb (some (String.mk (joinSlashL segs))) =
      ⟨bb, some (String.mk (joinSlashL segs))⟩ := by
  have hjne : ¬ joinSlashL segs = [] :=
    joinSlashL_ne_nil segs hne (fun x hx => (h x hx).1)
  have hsne : ¬ String.mk (joinSlashL segs) = "" := by
    intro hc
    exact hjne (by simpa using congrArg String.data hc)
  unfold S3Path.init
  dsimp only
  rw [if_neg hsne]
  rw [pyNormpath_slash_join segs hne h]
  rfl

theorem from_path_join_dots (b : List Char) (segs : List (List Char))
    (hb : ¬ b = [] ∧ '/' ∉ b ∧ ¬ b = ['.'] ∧ ¬ b = ['.', '.'])
    (hs : ∀ s ∈ segs, ¬ s = [] ∧ '/' ∉ s ∧ ¬ s = ['.'] ∧ ¬ s = ['.', '.']) :
    S3Path.from_path (String.mk ('/' :: '/' :: joinSlashL (b :: (segs ++ [['.', '.']])))) =
      (if segs = [] then (⟨none, none⟩ : S3Path)
       else ⟨some (String.mk b),
             if segs.dropLast = [] then none
             else some (String.mk (joinSlashL segs.dropLast))⟩) := by
  obtain ⟨bc, bs, rfl⟩ := List.exists_cons_of_ne_nil hb.1
  have hbc : ¬ bc = '/' := fun hc => hb.2.1 (by simp [hc])
  obtain ⟨tl, htl⟩ := joinSlashL_head_cons bc bs (segs ++ [['.', '.']])
  have ht5 : ∀ J : List Char, ¬ List.take 5 ('/' :: '/' :: J) = "s3://".data := by
    intro J hc
    have h2 : ('/' : Char) :: '/' :: List.take 3 J = "s3://".data := hc
    injection h2 with h1 _
    exact absurd h1 (by decide)
  have hslash : initialSlashesL
      ('/' :: '/' :: joinSlashL ((bc :: bs) :: (segs ++ [['.', '.']]))) = 2 := by
    rw [htl]
    unfold initialSlashesL
    dsimp only
    rw [if_pos rfl, if_pos rfl, if_neg hbc]
  have hsplit : splitOnChar '/'
      ('/' :: '/' :: joinSlashL ((bc :: bs) :: (segs ++ [['.', '.']]))) =
      [] :: [] :: (bc :: bs) :: (segs ++ [['.', '.']]) := by
    rw [show ('/' :: '/' :: joinSlashL ((bc :: bs) :: (segs ++ [['.', '.']]))) =
      [] ++ '/' :: ([] ++ '/' :: joinSlashL ((bc :: bs) :: (segs ++ [['.', '.']]))) from rfl]
    rw [splitOnChar_append_sep '/' [] _ (by simp), splitOnChar_append_sep '/' [] _ (by simp)]
    rw [splitOnChar_join _ (fun s hsm => by
      rcases List.mem_cons.mp hsm with h1 | h2
      · rw [h1]; exact hb.2.1
      · rcases List.mem_append.mp h2 with h3 | h4
        · exact (hs s h3).2.1
        · simp at h4
          rw [h4]
          decide) (by simp)]
  have hcomps : normComps 2 [] ([] :: [] :: (bc :: bs) :: (segs ++ [['.', '.']])) =
      ((bc :: bs) :: segs).dropLast := by
    rw [normComps_skip, normComps_skip]
    rw [show ((bc :: bs) :: (segs ++ [['.', '.']])) =
      ((bc :: bs) :: segs) ++ [['.', '.']] from by simp]
    rw [normComps_valids 2 ((bc :: bs) :: segs)
      (fun s hsm => by
        rcases List.mem_cons.mp hsm with h1 | h2
        · rw [h1]; exact ⟨hb.1, hb.2.2.1, hb.2.2.2⟩
        · exact ⟨(hs s h2).1, (hs s h2).2.2.1, (hs s h2).2.2.2⟩) [] [['.', '.']]]
    rw [show ([] ++ (bc :: bs) :: segs) = (bc :: bs) :: segs from rfl]
    rw [normComps_dotdot 2 ((bc :: bs) :: segs) (by simp) (by
      intro hc
      have hm := List.mem_of_getLast?_eq_some hc
      rcases List.mem_cons.mp hm with h1 | h2
      · exact hb.2.2.2 h1.symm
      · exact (hs _ h2).2.2.2 rfl)]
  have hnorm : pyNormpath
      (String.mk ('/' :: '/' :: joinSlashL ((bc :: bs) :: (segs ++ [['.', '.']])))) =
      String.mk (List.replicate 2 '/' ++ joinSlashL (((bc :: bs) :: segs).dropLast)) := by
    unfold pyNormpath
    dsimp only
    rw [hslash, hsplit, hcomps]
    rw [if_neg (by
      intro hc
      have := congrArg List.length hc
      simp at this)]
  unfold S3Path.from_path
  dsimp only
  rw [if_neg (ht5 _), hnorm]
  cases segs with
  | nil =>
    rw [show (List.replicate 2 '/' ++ joinSlashL (List.dropLast [bc :: bs])) =
      ['/', '/'] from rfl]
    rw [show stripSlashes (String.mk ['/', '/']) = "" from by decide]
    rw [if_pos (Or.inl rfl), if_pos rfl]
    rfl
  | cons t ts =>
    have hsub : ∀ s ∈ (t :: ts).dropLast, s ∈ t :: ts :=
      fun s hsm => (List.dropLast_sublist (t :: ts)).subset hsm
    have hval2 : ∀ x ∈ (bc :: bs) :: (t :: ts).dropLast, ¬ x = [] ∧ '/' ∉ x := by
      intro x hx
      rcases List.mem_cons.mp hx with h1 | h2
      · rw [h1]; exact ⟨hb.1, hb.2.1⟩
      · exact ⟨(hs x (hsub x h2)).1, (hs x (hsub x h2)).2.1⟩
    rw [List.dropLast_cons₂]
    rw [stripSlashes_join_valid ((bc :: bs) :: (t :: ts).dropLast) (by simp) hval2 2]
    have hne2 : ¬ (String.mk (joinSlashL ((bc :: bs) :: (t :: ts).dropLast)) = "" ∨
        String.mk (joinSlashL ((bc :: bs) :: (t :: ts).dropLast)) = ".") := by
      rintro (hc | hc)
      · exact joinSlashL_ne_nil _ (by simp) (fun x hx => (hval2 x hx).1)
          (congrArg String.data hc)
      · have hd : joinSlashL ((bc :: bs) :: (t :: ts).dropLast) = ['.'] :=
          congrArg String.data hc
        cases hD : (t :: ts).dropLast with
        | nil =>
          rw [hD] at hd
          exact hb.2.2.1 hd
        | cons u us =>
          rw [hD] at hd
          rw [joinSlashL_cons _ _ (by simp)] at hd
          have hlen := congrArg List.length hd
          simp only [List.length_append, List.length_cons, List.length_nil] at hlen
          omega
    rw [if_neg hne2]
    rw [str_data_mk]
    rw [splitOnChar_join _ (fun s hsm => (hval2 s hsm).2) (by simp)]
    simp only [List.headD_cons, List.tail_cons]
    rw [if_neg (by simp : ¬ (t :: ts) = [])]
    by_cases hD : (t :: ts).dropLast = []
    · rw [hD, if_pos rfl]
      unfold S3Path.init
      dsimp only
      rw [show String.mk (joinSlashL ([] : List (List Char))) = "" from rfl]
      rw [if_pos rfl]
    · rw [if_neg hD, S3Path_init_join (some (String.mk (bc :: bs))) ((t :: ts).dropLast) hD
        (fun s hsm => hs s (hsub s hsm))]

/-- C2 (amended): with a key of depth at least two, `..` strips exactly one
trailing segment; at depth one it clears the key but keeps the bucket; at the
bucket root (key absent) `..` does not stop at the bucket root but clears the
bucket as well, yielding the global root S3Path(None, None). -/
theorem c2_amended (b : List Char) (segs : List (List Char))
    (hb : ¬ b = [] ∧ '/' ∉ b ∧ ¬ b = ['.'] ∧ ¬ b = ['.', '.'])
    (hs : ∀ s ∈ segs, ¬ s = [] ∧ '/' ∉ s ∧ ¬ s = ['.'] ∧ ¬ s = ['.', '.']) :
    (¬ segs = [] →
      Cli.normalise_path [] ⟨some (String.mk b), some (String.mk (joinSlashL segs))⟩ ".." =
        .ok ⟨some (String.mk b),
          if segs.dropLast = [] then none
          else some (String.mk (joinSlashL segs.dropLast))⟩) ∧
    Cli.normalise_path [] ⟨some (String.mk b), none⟩ ".." = .ok ⟨none, none⟩ := by
  obtain ⟨bc, bs, rfl⟩ := List.exists_cons_of_ne_nil hb.1
  have hred : ∀ cur : S3Path, Cli.normalise_path [] cur ".." =
      .ok (S3Path.from_path (pyJoin ("/" ++ cur.path_string) "..")) := fun cur => rfl
  constructor
  · intro hne
    obtain ⟨t, ts, rfl⟩ := List.exists_cons_of_ne_nil hne
    have hJne : ¬ joinSlashL (t :: ts) = [] :=
      joinSlashL_ne_nil (t :: ts) (by simp) (fun x hx => (hs x hx).1)
    obtain ⟨ch, hch1, hch2⟩ := joinSlashL_getLast?_ne_slash (t :: ts) (by simp)
      (fun x hx => ⟨(hs x hx).1, (hs x hx).2.1⟩)
    have hdata : ("/" ++ S3Path.path_string
        ⟨some (String.mk (bc :: bs)), some (String.mk (joinSlashL (t :: ts)))⟩).data =
        ('/' :: '/' :: ((bc :: bs) ++ ['/'])) ++ joinSlashL (t :: ts) := rfl
    have hglast : ("/" ++ S3Path.path_string
        ⟨some (String.mk (bc :: bs)), some (String.mk (joinSlashL (t :: ts)))⟩).data.getLast? =
        some ch := by
      rw [hdata, List.getLast?_append_of_ne_nil _ hJne]
      exact hch1
    have hkey : pyJoin ("/" ++ S3Path.path_string
        ⟨some (String.mk (bc :: bs)), some (String.mk (joinSlashL (t :: ts)))⟩) ".." =
        String.mk ('/' :: '/' :: joinSlashL ((bc :: bs) :: ((t :: ts) ++ [['.', '.']]))) := by
      unfold pyJoin
      rw [if_neg (by decide)]
      rw [if_neg (by
        rintro (hc | hc)
        · rw [hdata] at hc
          simp at hc
        · rw [hglast] at hc
          injection hc with hc2
          exact hch2 hc2)]
      rw [str_eq_iff_data, str_data_append, str_data_append, hdata, str_data_mk]
      rw [joinSlashL_cons (bc :: bs) ((t :: ts) ++ [['.', '.']]) (by simp),
        joinSlashL_append_singleton (t :: ts) ['.', '.'] (by simp)]
      simp [List.append_assoc, show ("/" : String).data = ['/'] from rfl,
        show (".." : String).data = ['.', '.'] from rfl]
    rw [hred, hkey, from_path_join_dots (bc :: bs) (t :: ts) hb hs]
    rw [if_neg (by simp : ¬ (t :: ts) = [])]
  · have hdataR : ("/" ++ S3Path.path_string ⟨some (String.mk (bc :: bs)), none⟩).data =
        ('/' :: '/' :: (bc :: bs)) ++ ['/'] := by
      have h0 : ("/" ++ S3Path.path_string ⟨some (String.mk (bc :: bs)), none⟩).data =
          (('/' :: '/' :: (bc :: bs)) ++ ['/']) ++ ([] : List Char) := rfl
      rw [h0, List.append_nil]
    have hroot : pyJoin ("/" ++ S3Path.path_string ⟨some (String.mk (bc :: bs)), none⟩) ".." =
        String.mk ('/' :: '/' :: joinSlashL ((bc :: bs) :: ([] ++ [['.', '.']]))) := by
      unfold pyJoin
      rw [if_neg (by decide)]
      rw [if_pos (Or.inr (by rw [hdataR]; exact List.getLast?_concat _))]
      rw [str_eq_iff_data, str_data_append, hdataR, str_data_mk]
      rw [show joinSlashL ((bc :: bs) :: ([] ++ [['.', '.']])) =
        (bc :: bs) ++ '/' :: ['.', '.'] from rfl]
      simp [List.append_assoc, show (".." : String).data = ['.', '.'] from rfl]
    rw [hred, hroot, from_path_join_dots (bc :: bs) [] hb (by simp)]
    rw [if_pos rfl]

/-- C2 amended witness: a concrete check at depth two and at the bucket root. -/
theorem c2_amended_witness :
    Cli.normalise_path [] ⟨some (String.mk ['b']), some (String.mk (joinSlashL [['a'], ['c']]))⟩
        ".." =
      .ok ⟨some (String.mk ['b']),
        if List.dropLast [['a'], ['c']] = ([] : List (List Char)) then none
        else some (String.mk (joinSlashL (List.dropLast [['a'], ['c']])))⟩ ∧
    Cli.normalise_path [] ⟨some (String.mk ['b']), none⟩ ".." = .ok ⟨none, none⟩ := by
  refine ⟨(c2_amended ['b'] [['a'], ['c']] (by decide) (by decide)).1 (by decide),
    (c2_amended ['b'] [['a'], ['c']] (by decide) (by decide)).2⟩
